import Mathlib

/-!
# Verification of the twisted mail core against its specification

This file gives a shallow embedding, in Lean 4, of the components of the
repository that the specification describes:

* `src/src/twisted/python/systemd.py` (`ListenFDs`) is embedded directly
  from its source.
* The mail components (MX calculator with negative cache and CNAME
  chasing, delivery queue, relay session, maildir mailbox, alias
  resolver, process-alias message wrapper) are not shipped under `src/`;
  only their tests are (`src/twisted/mail/test/test_mail.py`).  They are
  modelled from the specification, with behaviour pinned by the
  repository's own tests where the tests are explicit.

Machine integers are modelled as `Int`/`Nat`; environments as
association lists; fallible operations return `Option`/`Except`.
-/

namespace Systemd

/-- An environment mapping, as Python's `os.environ`: an association
list from variable names to string values.  Lookup takes the first
binding; deletion removes the binding. -/
abbrev Env := List (String × String)

/-- `environ[k]` as an `Option`, `none` meaning `KeyError`. -/
def envLookup (e : Env) (k : String) : Option String :=
  e.lookup k

/-- `del environ[k]` on the underlying list (all bindings of `k` go,
which coincides with `dict` deletion since a `dict` has unique keys). -/
def envErase (e : Env) (k : String) : Env :=
  e.filter (fun p => p.1 ≠ k)

/-- Errors the Python code can raise: `KeyError` and `ValueError`. -/
inductive PyErr where
  | keyError (k : String)
  | valueError
  deriving DecidableEq, Repr

/-- `del environ[k]`, which raises `KeyError` when `k` is absent. -/
def envDelete (e : Env) (k : String) : Except PyErr Env :=
  if (envLookup e k).isSome then .ok (envErase e k) else .error (.keyError k)

/-- Decimal digit test. -/
def isDigitChar (c : Char) : Bool :=
  '0' ≤ c && c ≤ '9'

/-- Value of a digit character. -/
def digitVal (c : Char) : Nat :=
  c.toNat - 48

/-- Python's whitespace test, for `int()`'s stripping. -/
def isSpaceChar (c : Char) : Bool :=
  c = ' ' || c = '\t' || c = '\n' || c = '\r' || c = '\x0b' || c = '\x0c'

/-- Strip whitespace from both ends of a character list. -/
def stripChars (cs : List Char) : List Char :=
  ((cs.dropWhile isSpaceChar).reverse.dropWhile isSpaceChar).reverse

/-- Python's `int(s)` on a string: surrounding whitespace allowed, an
optional sign, then a non-empty run of decimal digits; anything else
raises `ValueError` (`none`).  (Digit-group underscores are not
modelled; no claim depends on them.) -/
def pyInt? (s : String) : Option Int :=
  match stripChars s.toList with
  | [] => none
  | c :: rest =>
    let (neg, digits) :=
      if c = '-' then (true, rest)
      else if c = '+' then (false, rest)
      else (false, c :: rest)
    if digits ≠ [] && digits.all isDigitChar then
      let n : Nat := digits.foldl (fun acc d => acc * 10 + digitVal d) 0
      some (if neg then -(n : Int) else (n : Int))
    else none

/-- Python's `list(range(a, b))` over integers. -/
def intRange (a b : Int) : List Int :=
  (List.range (b - a).toNat).map (fun (i : ℕ) => a + (i : Int))

/-- `ListenFDs` holds the descriptors inherited from systemd. -/
structure ListenFDs where
  descriptors : List Int
  deriving DecidableEq, Repr

/-- `ListenFDs._START`: the fixed lowest inherited descriptor. -/
def START : Int := 3

/-- `ListenFDs.inheritedDescriptors`. -/
def ListenFDs.inheritedDescriptors (l : ListenFDs) : List Int :=
  l.descriptors

/-- `ListenFDs.fromEnvironment(environ, start)`: the current process id
is passed explicitly (the source calls `os.getpid()`).  Returns the
constructed instance together with the (possibly mutated) environment;
an `.error` outcome would correspond to an uncaught Python exception. -/
def fromEnvironment (environ : Env) (start : Option Int) (currentPid : Int) :
    Except PyErr (ListenFDs × Env) :=
  let s := start.getD START
  match pyIntOfKey environ "LISTEN_PID" with
  | none => .ok (⟨[]⟩, environ)
  | some pid =>
    if pid = currentPid then
      match pyIntOfKey environ "LISTEN_FDS" with
      | none => .ok (⟨[]⟩, environ)
      | some count => do
        let descriptors := intRange s (s + count)
        let e1 ← envDelete environ "LISTEN_PID"
        let e2 ← envDelete e1 "LISTEN_FDS"
        .ok (⟨descriptors⟩, e2)
    else .ok (⟨[]⟩, environ)
where
  /-- `int(environ[k])` with `KeyError` and `ValueError` both mapped to
  `none`, exactly the pair of exceptions the source catches. -/
  pyIntOfKey (e : Env) (k : String) : Option Int :=
    (envLookup e k).bind pyInt?

end Systemd

namespace MXCalc

/-- Modelled from the spec: an MX record, `{preference, exchangeHost}`
(§3 Data Model).  The host-name type is a parameter. -/
structure MXRecord (α : Type) where
  preference : Int
  exchange : α
  deriving DecidableEq, Repr

/-- First-match association-list lookup. -/
def aLookup [DecidableEq α] : List (α × β) → α → Option β
  | [], _ => none
  | (k, v) :: rest, h => if k = h then some v else aLookup rest h

/-- Remove every binding of a key from an association list. -/
def aErase [DecidableEq α] (l : List (α × β)) (h : α) : List (α × β) :=
  l.filter (fun p => p.1 ≠ h)

/-- Modelled from the spec: the state of `MXCalculator`
(`twisted/mail/relaymanager.py`, not under `src/`): the negative cache
`badMXs` mapping a host to the clock time at which it was last marked
bad, the injected clock's current time, and the configured
`timeOutBadMX`. -/
structure MXState (α : Type) where
  badMXs : List (α × Int)
  clock : Int
  timeOutBadMX : Int
  deriving DecidableEq, Repr

/-- A fresh calculator: empty negative cache. -/
def initState (t0 timeout : Int) : MXState α :=
  ⟨[], t0, timeout⟩

/-- `markBad(host)`: insert/refresh a negative-cache entry at the
current clock time. -/
def markBad [DecidableEq α] (st : MXState α) (h : α) : MXState α :=
  { st with badMXs := (h, st.clock) :: aErase st.badMXs h }

/-- `markGood(host)`: remove any negative-cache entry for the host. -/
def markGood [DecidableEq α] (st : MXState α) (h : α) : MXState α :=
  { st with badMXs := aErase st.badMXs h }

/-- Advance the injected clock by `d` seconds. -/
def advanceClock (st : MXState α) (d : Nat) : MXState α :=
  { st with clock := st.clock + d }

/-- The negative-cache entry for a host, if any. -/
def badEntry [DecidableEq α] (st : MXState α) (h : α) : Option Int :=
  aLookup st.badMXs h

/-- A host is excluded from candidate selection iff its negative-cache
entry was recorded within `timeOutBadMX` of the current clock time;
older entries are treated as absent (checked lazily on read). -/
def excludedHost [DecidableEq α] (st : MXState α) (h : α) : Bool :=
  match badEntry st h with
  | none => false
  | some t => st.clock - t < st.timeOutBadMX

/-- An MX record is an eligible candidate iff its exchange host is not
excluded by the negative cache. -/
def eligible [DecidableEq α] (st : MXState α) (r : MXRecord α) : Bool :=
  !excludedHost st r.exchange

/-- The candidate records `getMX` selects from: the answer set with the
negatively-cached exchangers discarded. -/
def candidates [DecidableEq α] (st : MXState α) (ans : List (MXRecord α)) :
    List (MXRecord α) :=
  ans.filter (eligible st)

/-- Of two records, the one with the strictly lower preference (the
earlier one on a tie, matching a stable ascending sort). -/
def pickBetter (best x : MXRecord α) : MXRecord α :=
  if x.preference < best.preference then x else best

/-- The lowest-preference record of a list, earliest on ties. -/
def minByPref : List (MXRecord α) → Option (MXRecord α)
  | [] => none
  | r :: rs => some (rs.foldl pickBetter r)

/-- Modelled from the spec: the final selection step of `getMX` (§4.1
step 5): discard exchangers in the non-expired negative cache and take
the lowest-preference survivor; if all are discarded, fall back to the
lowest-preference record of the whole set. -/
def pickMX [DecidableEq α] (st : MXState α) (ans : List (MXRecord α)) :
    Option (MXRecord α) :=
  match minByPref (candidates st ans) with
  | some r => some r
  | none => minByPref ans

/-- One call of the mutating API of `MXCalculator`, or a clock advance. -/
inductive MXOp (α : Type) where
  | markBad (h : α)
  | markGood (h : α)
  | advance (d : Nat)
  deriving DecidableEq, Repr

/-- Apply one operation. -/
def stepOp [DecidableEq α] (st : MXState α) : MXOp α → MXState α
  | .markBad h => markBad st h
  | .markGood h => markGood st h
  | .advance d => advanceClock st d

/-- Run a sequence of operations. -/
def runOps [DecidableEq α] (st : MXState α) (ops : List (MXOp α)) : MXState α :=
  ops.foldl stepOp st

/-- Total clock advance of a sequence of operations. -/
def sumAdvances : List (MXOp α) → Nat
  | [] => 0
  | .advance d :: ops => d + sumAdvances ops
  | _ :: ops => sumAdvances ops

/-- Whether a sequence contains a `markBad` of the given host. -/
def hasMarkBad [DecidableEq α] (h : α) : List (MXOp α) → Bool
  | [] => false
  | .markBad g :: ops => g = h || hasMarkBad h ops
  | _ :: ops => hasMarkBad h ops


/-- A DNS answer record, as far as `getMX` inspects it: an MX record or
a CNAME record, each with its owner name. -/
inductive DNSRecord (α : Type) where
  | mx (owner : α) (preference : Int) (exchange : α)
  | cname (owner : α) (canonical : α)
  deriving DecidableEq, Repr

/-- The owner name of an answer record. -/
def DNSRecord.owner : DNSRecord α → α
  | .mx o _ _ => o
  | .cname o _ => o

/-- Failures `getMX` can report. -/
inductive MXError (α : Type) where
  | nameError (domain : α)
  | chainTooLong (offending : DNSRecord α)
  | canonicalNameLoop (offending : DNSRecord α)
  deriving DecidableEq, Repr

/-- The first CNAME record of the answer set pertinent to `domain`:
`(owner, canonical)`.  -/
def findCname [DecidableEq α] (answers : List (DNSRecord α)) (domain : α) :
    Option (α × α) :=
  answers.findSome? (fun r =>
    match r with
    | .cname o c => if o = domain then some (o, c) else none
    | .mx _ _ _ => none)

/-- The MX record carried by an answer record pertinent to `domain`. -/
def mxOf [DecidableEq α] (domain : α) : DNSRecord α → Option (MXRecord α)
  | .mx o p e => if o = domain then some ⟨p, e⟩ else none
  | .cname _ _ => none

/-- The verdict of examining one answer set. -/
inductive InnerResult (α : Type) where
  | found (r : MXRecord α)
  | noRecords
  | loopFound (offending : DNSRecord α)
  | needLookup (canonical : α) (offending : DNSRecord α)
  deriving DecidableEq, Repr

/-- Modelled from the spec: examining one answer set (§4.1 steps 2-5).
A CNAME pertinent to the current domain is followed inside the same
answer set when the canonical name also has records there ("glue
records", step 4); a canonical name equal to an already-visited name
fails with `CanonicalNameLoop` at once (step 3); a CNAME without glue
asks the caller for a fresh lookup (step 2).  Otherwise the pertinent
MX records are filtered through the negative cache (step 5).  The fuel
only bounds the walk within the finite answer set. -/
def resolveAnswer [DecidableEq α] (st : MXState α) (answers : List (DNSRecord α)) :
    Nat → α → List α → InnerResult α
  | 0, _, _ => .noRecords
  | fuel + 1, domain, seen =>
    match findCname answers domain with
    | some (o, canonical) =>
      let seen' := domain :: seen
      if answers.any (fun r => r.owner = canonical) then
        if canonical ∈ seen' then .loopFound (.cname o canonical)
        else resolveAnswer st answers fuel canonical seen'
      else .needLookup canonical (.cname o canonical)
    | none =>
      match pickMX st (answers.filterMap (mxOf domain)) with
      | some r => .found r
      | none => .noRecords

/-- Modelled from the spec: the CNAME-chasing loop of
`MXCalculator.getMX` (§4.1 steps 1-5).  The resolver is a pure map from
a domain to its MX answer set (`none` = name error).  Returns the
outcome together with the number of resolver lookups performed.  On a
chain longer than the hop limit it fails with `chainTooLong` carrying
the offending CNAME record; the hop count is the returned lookup
count. -/
def getMXChain [DecidableEq α] (resolver : α → Option (List (DNSRecord α)))
    (st : MXState α) : α → Nat → Except (MXError α) (MXRecord α) × Nat
  | domain, cnamesLeft =>
    match resolver domain with
    | none => (.error (.nameError domain), 1)
    | some answers =>
      match resolveAnswer st answers (answers.length + 1) domain [] with
      | .found r => (.ok r, 1)
      | .noRecords => (.error (.nameError domain), 1)
      | .loopFound cr => (.error (.canonicalNameLoop cr), 1)
      | .needLookup canonical cr =>
        match cnamesLeft with
        | 0 => (.error (.chainTooLong cr), 1)
        | n + 1 =>
          let r := getMXChain resolver st canonical n
          (r.1, r.2 + 1)

/-- A resolver answering a linear CNAME chain `0 → 1 → ⋯ → L` with a
single MX record (exchange `exch`, preference 0) at the final name `L`
and at every name past it. -/
def chainResolver (L : Nat) (exch : Nat) : Nat → Option (List (DNSRecord Nat)) :=
  fun d => if d < L then some [.cname d (d + 1)] else some [.mx d 0 exch]

/-- A resolver answering every name `d` with a CNAME to `d + 1`: an
unboundedly long chain. -/
def endlessResolver : Nat → Option (List (DNSRecord Nat)) :=
  fun d => some [.cname d (d + 1)]

/-- A resolver answering every lookup with two CNAME records that point
at each other. -/
def twoLoopResolver [DecidableEq α] (a b : α) : α → Option (List (DNSRecord α)) :=
  fun _ => some [.cname a b, .cname b a]

/-- Trace-level account of the negative-cache entry for host `h`: fold
the operation sequence from clock time `t` and entry `acc`, recording
the time of each `markBad h` and clearing on `markGood h`. -/
def traceBad [DecidableEq α] (h : α) : List (MXOp α) → Int → Option Int → Option Int
  | [], _, acc => acc
  | .markBad g :: ops, t, acc => traceBad h ops t (if g = h then some t else acc)
  | .markGood g :: ops, t, acc => traceBad h ops t (if g = h then none else acc)
  | .advance d :: ops, t, acc => traceBad h ops (t + d) acc

end MXCalc

namespace Queue

/-- Modelled from the spec: the observable state of the delivery queue
(`twisted/mail/relaymanager.py` `Queue`, not under `src/`), restricted
to the Waiting/Relaying partition of the complete messages on disk
(§4.2).  Message identifiers are modelled as naturals. -/
structure QState where
  waiting : Finset ℕ
  relaying : Finset ℕ
  deriving DecidableEq

/-- The state right after `readDirectory`: every complete message is
classified Waiting. -/
def initQueue (ids : Finset ℕ) : QState := ⟨ids, ∅⟩

/-- `getWaiting()`, viewed as a set of identifiers. -/
def getWaiting (q : QState) : Finset ℕ := q.waiting

/-- `getRelayed()`, viewed as a set of identifiers. -/
def getRelayed (q : QState) : Finset ℕ := q.relaying

/-- `setRelaying(id)`: moves Waiting → Relaying; no-ops when the id is
not Waiting. -/
def setRelaying (q : QState) (i : ℕ) : QState :=
  if i ∈ q.waiting then ⟨q.waiting.erase i, insert i q.relaying⟩ else q

/-- `setWaiting(id)`: reverts Relaying → Waiting; no-ops when the id is
not Relaying. -/
def setWaiting (q : QState) (i : ℕ) : QState :=
  if i ∈ q.relaying then ⟨insert i q.waiting, q.relaying.erase i⟩ else q

/-- `done(id)`: permanently removes the message. -/
def doneMsg (q : QState) (i : ℕ) : QState :=
  ⟨q.waiting.erase i, q.relaying.erase i⟩

/-- One state-transition call on the queue. -/
inductive QOp where
  | setRelaying (i : ℕ)
  | setWaiting (i : ℕ)
  | done (i : ℕ)
  deriving DecidableEq, Repr

/-- Apply one call. -/
def qstep (q : QState) : QOp → QState
  | .setRelaying i => setRelaying q i
  | .setWaiting i => setWaiting q i
  | .done i => doneMsg q i

/-- Run a sequence of calls. -/
def qrun (q : QState) (ops : List QOp) : QState := ops.foldl qstep q

/-- Whether the sequence calls `done` on the given id. -/
def hasDone (i : ℕ) : List QOp → Bool
  | [] => false
  | .done j :: ops => j = i || hasDone i ops
  | _ :: ops => hasDone i ops

end Queue

namespace Maildir

/-- A message file: its (unique) name and its byte length. -/
structure Msg where
  name : String
  size : ℕ
  deriving DecidableEq, Repr

/-- Modelled from the spec: the observable state of `MaildirMailbox`
(`twisted/mail/maildir.py`, not under `src/`), with the filesystem
folded in.  `slots` is the listing snapshot (`none` marks a slot whose
message was deleted, listed with length 0); `trashCur` the contents of
the `.Trash` mailbox's `cur` directory; `deleted` the undo record of
messages moved to trash and not yet synced.  Where the spec's words
disagree with the repository's own tests (`MaildirTestCase.test_mailbox`
asserts the file is already under `.Trash/cur` right after
`deleteMessage`, before any `sync`), the tests are followed. -/
structure MaildirBox where
  slots : List (Option Msg)
  trashCur : List Msg
  deleted : List Msg
  deriving DecidableEq, Repr

/-- A freshly listed mailbox. -/
def initBox (msgs : List Msg) : MaildirBox := ⟨msgs.map some, [], []⟩

/-- `listMessages()`: the lengths of all messages, deleted slots
reported as 0. -/
def listMessages (b : MaildirBox) : List ℕ :=
  b.slots.map (fun s => match s with | some m => m.size | none => 0)

/-- `listMessages(i)`: the length of message `i` (0 when marked
deleted); `none` models an out-of-range index. -/
def listMessage (b : MaildirBox) (i : ℕ) : Option ℕ :=
  (b.slots.get? i).map (fun s => match s with | some m => m.size | none => 0)

/-- `deleteMessage(i)`: renames the message file into the Trash
mailbox's `cur` directory at once, records the undo entry, and zeroes
the slot (so it lists as 0). -/
def deleteMessage (b : MaildirBox) (i : ℕ) : MaildirBox :=
  match b.slots.get? i with
  | some (some m) =>
    ⟨b.slots.set i none, m :: b.trashCur, m :: b.deleted⟩
  | _ => b

/-- Put a restored message back into the first zeroed slot (appending
when no slot is free). -/
def fillFirstNone : List (Option Msg) → Msg → List (Option Msg)
  | [], m => [some m]
  | none :: rest, m => some m :: rest
  | some x :: rest, m => some x :: fillFirstNone rest m

/-- Undo a single recorded deletion: move the file out of the trash and
back into the listing. -/
def undeleteOne (b : MaildirBox) (m : Msg) : MaildirBox :=
  ⟨fillFirstNone b.slots m, b.trashCur.erase m, b.deleted⟩

/-- `undeleteMessages()`: restore every not-yet-synced deletion, oldest
first, and forget the undo records. -/
def undeleteMessages (b : MaildirBox) : MaildirBox :=
  let b' := b.deleted.reverse.foldl undeleteOne b
  ⟨b'.slots, b'.trashCur, []⟩

/-- `sync()`: forget the undo records; the trashed files stay where
`deleteMessage` put them, now unrecoverable. -/
def syncBox (b : MaildirBox) : MaildirBox :=
  ⟨b.slots, b.trashCur, []⟩

end Maildir

namespace Alias

/-- A concrete receiver an alias expands to. -/
inductive Receiver where
  | user (name : String)
  | process (cmd : String)
  | file (path : String)
  deriving DecidableEq, Repr

/-- Modelled from the spec: an `AliasNode` (§3): an address alias (with
its own key `own` and the address `target` it references), a process
alias, a file alias, or an alias group. -/
inductive AliasNode where
  | addr (own : String) (target : String)
  | process (cmd : String)
  | file (path : String)
  | group (members : List AliasNode)

/-- An alias map: alias name to node. -/
abbrev AMap := List (String × AliasNode)

mutual

/-- Modelled from the spec: `resolve(node, aliasMap, memo)` (§4.5).  An
address alias already in the memo contributes nothing (`none`); else it
memoizes its own key, resolves to a user when the domain registry
contains the target, otherwise looks the target up in the alias map and
recurses; unresolvable chains yield `none`.  File and process aliases
are concrete receivers.  The memo is threaded through (it is a mutable
set in the source); the fuel only bounds chain length, and the memo
guarantees it is never exhausted when ample. -/
def resolveNode (users : List String) (amap : AMap) :
    Nat → AliasNode → List String → Option (List Receiver) × List String
  | 0, _, memo => (none, memo)
  | _ + 1, .process cmd, memo => (some [.process cmd], memo)
  | _ + 1, .file p, memo => (some [.file p], memo)
  | fuel + 1, .addr own target, memo =>
    if own ∈ memo then (none, memo)
    else
      let memo' := own :: memo
      if target ∈ users then (some [.user target], memo')
      else
        match MXCalc.aLookup amap target with
        | some node => resolveNode users amap fuel node memo'
        | none => (none, memo')
  | fuel + 1, .group members, memo =>
    let r := resolveList users amap fuel members memo
    (some r.1, r.2)

/-- Resolve the members of a group in order, sharing the memo; an
unresolvable member contributes nothing. -/
def resolveList (users : List String) (amap : AMap) :
    Nat → List AliasNode → List String → List Receiver × List String
  | _, [], memo => ([], memo)
  | fuel, n :: rest, memo =>
    match resolveNode users amap fuel n memo with
    | (some rs, memo') =>
      let r := resolveList users amap fuel rest memo'
      (rs ++ r.1, r.2)
    | (none, memo') => resolveList users amap fuel rest memo'

end

/-- Resolution at ample fuel (every alias chain marks a fresh key, so
twice the map size plus two always suffices), with an empty memo. -/
def resolve (users : List String) (amap : AMap) (node : AliasNode) :
    Option (List Receiver) :=
  (resolveNode users amap (2 * amap.length + 2) node []).1

end Alias

namespace ProcessAlias

/-- The recorded exit reason of the child process: clean exit
(`ProcessDone`) or abnormal termination (`ProcessTerminated`, with the
platform status). -/
inductive ExitReason where
  | processDone (status : Int)
  | processTerminated (status : Int)
  deriving DecidableEq, Repr

/-- The final state of the completion returned by `eomReceived`. -/
inductive Outcome where
  | success
  | failed (r : ExitReason)
  | timedOut
  deriving DecidableEq, Repr

/-- Modelled from the spec: the observable state of
`mail.alias.MessageWrapper` (§4.5, not under `src/`) together with its
injected clock.  `deadline` is the pending scheduled kill, if any;
`result` the completion's outcome once it has fired (a completion is
produced exactly once); `killSignals` the signals sent to the child. -/
structure MWState where
  clock : Int
  completionTimeout : Int
  ended : Bool
  endReason : Option ExitReason
  eomCalled : Bool
  deadline : Option Int
  killSignals : List String
  result : Option Outcome
  deriving DecidableEq, Repr

/-- A fresh wrapper around a still-running process. -/
def mwInit (t0 timeout : Int) : MWState :=
  ⟨t0, timeout, false, none, false, none, [], none⟩

/-- An event observable by the wrapper. -/
inductive MWEvent where
  | eomReceived
  | processEnded (r : ExitReason)
  | advance (d : ℕ)
  deriving DecidableEq, Repr

/-- Does the recorded reason make a post-`eomReceived` completion
succeed?  Only a clean exit does. -/
def isClean : ExitReason → Bool
  | .processDone _ => true
  | .processTerminated _ => false

/-- Modelled from the spec: one event step.  `eomReceived` schedules
the deferred kill at `completionTimeout` after now when the process is
still running; a process exit before `eomReceived` fails the completion
immediately with the recorded exit reason; an exit afterwards cancels
the deadline and completes (success on clean exit); advancing the clock
to the deadline of a still-unfinished completion sends KILL and fails
it with `ProcessAliasTimeout`.  A completion fires at most once. -/
def mwStep (st : MWState) : MWEvent → MWState
  | .eomReceived =>
    if st.eomCalled then st
    else if st.ended then { st with eomCalled := true }
    else { st with eomCalled := true,
                   deadline := some (st.clock + st.completionTimeout) }
  | .processEnded r =>
    if st.result.isSome then { st with ended := true }
    else
      { st with ended := true, endReason := some r, deadline := none,
                result := some (if st.eomCalled then
                                  if isClean r then .success else .failed r
                                else .failed r) }
  | .advance d =>
    let c := st.clock + (d : Int)
    match st.deadline with
    | some dl =>
      if st.result.isNone ∧ dl ≤ c then
        { st with clock := c, deadline := none,
                  killSignals := st.killSignals ++ ["KILL"],
                  result := some .timedOut }
      else { st with clock := c }
    | none => { st with clock := c }

end ProcessAlias

namespace Relay

/-- A queued message as the relay session sees it: envelope and body. -/
structure Msg where
  sender : String
  recipients : List String
  body : List String
  deriving DecidableEq, Repr

/-- Modelled from the spec: the state of one relay session
(`RelayerMixin`/`ManagedRelayerMixin`, not under `src/`): the remaining
batch, in load order, and the per-message outcomes reported to the
manager so far, in report order. -/
structure Session where
  batch : List Msg
  succeeded : List Msg
  failed : List Msg
  deriving DecidableEq, Repr

/-- `loadMessages(ids)`: seed the batch. -/
def loadMessages (ms : List Msg) : Session := ⟨ms, [], []⟩

/-- `getMailFrom()`: the current message's sender, or the terminal
sentinel `none` once the batch is exhausted. -/
def getMailFrom (s : Session) : Option String := s.batch.head?.map Msg.sender

/-- `getMailTo()`: the current message's recipients, or `none`. -/
def getMailTo (s : Session) : Option (List String) :=
  s.batch.head?.map Msg.recipients

/-- `getMailData()`: the current message's body, or `none`. -/
def getMailData (s : Session) : Option (List String) :=
  s.batch.head?.map Msg.body

/-- Whether an SMTP status code counts as success. -/
def is2xx (code : ℕ) : Bool := 200 ≤ code && code < 300

/-- Modelled from the spec: `sentMail(statusCode, ...)` (§4.3): report
the current message as succeeded (2xx) or failed (anything else) to the
manager, and advance to the next message of the batch. -/
def sentMail (s : Session) (code : ℕ) : Session :=
  match s.batch with
  | [] => s
  | m :: rest =>
    if is2xx code then ⟨rest, s.succeeded ++ [m], s.failed⟩
    else ⟨rest, s.succeeded, s.failed ++ [m]⟩

/-- Drive the session through a list of per-attempt status codes. -/
def runCodes (s : Session) (codes : List ℕ) : Session :=
  codes.foldl sentMail s

end Relay


/-! ## Helper lemmas -/

namespace Systemd

theorem envLookup_envErase (e : Env) (k k' : String) :
    envLookup (envErase e k) k' = if k' = k then none else envLookup e k' := by
  induction e with
  | nil => simp [envLookup, envErase]
  | cons a rest ih =>
    obtain ⟨ka, va⟩ := a
    simp only [envLookup, envErase, ne_eq, decide_not] at ih ⊢
    by_cases hka : ka = k
    · subst hka
      by_cases hk' : k' = ka
      · subst hk'
        simpa [List.filter_cons, decide_not] using ih
      · simp [List.filter_cons, List.lookup_cons, decide_not,
          beq_false_of_ne hk', hk', ih]
    · by_cases hk' : k' = ka
      · subst hk'
        simp [List.filter_cons, List.lookup_cons, decide_not, hka, Ne.symm hka]
      · simp [List.filter_cons, List.lookup_cons, decide_not,
          beq_false_of_ne hk', hka, ih]

theorem intRange_length (a b : Int) : (intRange a b).length = (b - a).toNat := by
  rw [intRange, List.length_map, List.length_range]

theorem intRange_getElem (a b : Int) (i : ℕ) (h : i < (b - a).toNat) :
    (intRange a b)[i]? = some (a + i) := by
  rw [intRange, List.getElem?_map, List.getElem?_range h]
  rfl

theorem fromEnvironment_noPid (environ : Env) (start : Option Int) (pid : Int)
    (h : (envLookup environ "LISTEN_PID").bind pyInt? = none) :
    fromEnvironment environ start pid = .ok (⟨[]⟩, environ) := by
  simp [fromEnvironment, fromEnvironment.pyIntOfKey, h]

theorem fromEnvironment_wrongPid (environ : Env) (start : Option Int) (pid q : Int)
    (h : (envLookup environ "LISTEN_PID").bind pyInt? = some q) (hne : q ≠ pid) :
    fromEnvironment environ start pid = .ok (⟨[]⟩, environ) := by
  simp [fromEnvironment, fromEnvironment.pyIntOfKey, h, hne]

theorem fromEnvironment_noFds (environ : Env) (start : Option Int) (pid q : Int)
    (hq : (envLookup environ "LISTEN_PID").bind pyInt? = some q)
    (h : (envLookup environ "LISTEN_FDS").bind pyInt? = none) :
    fromEnvironment environ start pid = .ok (⟨[]⟩, environ) := by
  by_cases hqe : q = pid
  · subst hqe
    simp [fromEnvironment, fromEnvironment.pyIntOfKey, hq, h]
  · exact fromEnvironment_wrongPid environ start pid q hq hqe

theorem fromEnvironment_ok (environ : Env) (start : Option Int) (pid n : Int)
    (hq : (envLookup environ "LISTEN_PID").bind pyInt? = some pid)
    (hn : (envLookup environ "LISTEN_FDS").bind pyInt? = some n) :
    fromEnvironment environ start pid =
      .ok (⟨intRange (start.getD START) (start.getD START + n)⟩,
           envErase (envErase environ "LISTEN_PID") "LISTEN_FDS") := by
  have h1 : (envLookup environ "LISTEN_PID").isSome := by
    cases h : envLookup environ "LISTEN_PID" <;> simp [h] at hq ⊢
  have h2 : (envLookup (envErase environ "LISTEN_PID") "LISTEN_FDS").isSome := by
    rw [envLookup_envErase]
    cases h : envLookup environ "LISTEN_FDS" <;> simp [h] at hn ⊢
  simp [fromEnvironment, fromEnvironment.pyIntOfKey, hq, hn, envDelete, h1, h2,
    Bind.bind, Except.bind]

/-- C9: when `LISTEN_PID` parses as an integer equal to the current
process id and `LISTEN_FDS` parses as an integer count `n`,
`ListenFDs.fromEnvironment(environ, start)` returns an instance whose
`inheritedDescriptors()` is exactly the contiguous range
`[start, …, start + n - 1]` (with `start` defaulting to the fixed base
`_START = 3`), deletes both `LISTEN_PID` and `LISTEN_FDS` from the
mapping while leaving every other entry unchanged, and a second
`fromEnvironment` call on the resulting mapping yields no
descriptors. -/
theorem listenfds_consumed_once (environ : Env) (start : Option Int)
    (ps cs : String) (pid n : Int)
    (hp : envLookup environ "LISTEN_PID" = some ps) (hpi : pyInt? ps = some pid)
    (hf : envLookup environ "LISTEN_FDS" = some cs) (hfi : pyInt? cs = some n) :
    fromEnvironment environ start pid =
      .ok (⟨intRange (start.getD START) (start.getD START + n)⟩,
           envErase (envErase environ "LISTEN_PID") "LISTEN_FDS") ∧
    START = 3 ∧
    (ListenFDs.mk (intRange (start.getD START) (start.getD START + n))
        ).inheritedDescriptors.length = n.toNat ∧
    (∀ i : ℕ, i < n.toNat →
      (ListenFDs.mk (intRange (start.getD START) (start.getD START + n))
          ).inheritedDescriptors[i]? = some (start.getD START + i)) ∧
    envLookup (envErase (envErase environ "LISTEN_PID") "LISTEN_FDS")
        "LISTEN_PID" = none ∧
    envLookup (envErase (envErase environ "LISTEN_PID") "LISTEN_FDS")
        "LISTEN_FDS" = none ∧
    (∀ k, k ≠ "LISTEN_PID" → k ≠ "LISTEN_FDS" →
      envLookup (envErase (envErase environ "LISTEN_PID") "LISTEN_FDS") k =
        envLookup environ k) ∧
    fromEnvironment (envErase (envErase environ "LISTEN_PID") "LISTEN_FDS")
        start pid =
      .ok (⟨[]⟩, envErase (envErase environ "LISTEN_PID") "LISTEN_FDS") := by
  have hq : (envLookup environ "LISTEN_PID").bind pyInt? = some pid := by
    rw [hp]; simpa using hpi
  have hn : (envLookup environ "LISTEN_FDS").bind pyInt? = some n := by
    rw [hf]; simpa using hfi
  have herase2 : ∀ k, envLookup (envErase (envErase environ "LISTEN_PID")
      "LISTEN_FDS") k =
      if k = "LISTEN_FDS" then none
      else if k = "LISTEN_PID" then none else envLookup environ k := by
    intro k
    rw [envLookup_envErase, envLookup_envErase]
  refine ⟨fromEnvironment_ok environ start pid n hq hn, rfl, ?_, ?_, ?_, ?_, ?_, ?_⟩
  · rw [ListenFDs.inheritedDescriptors, intRange_length]
    omega
  · intro i hi
    rw [ListenFDs.inheritedDescriptors, intRange_getElem]
    omega
  · simp [herase2]
  · simp [herase2]
  · intro k h1 h2
    simp [herase2, h1, h2]
  · apply fromEnvironment_noPid
    simp [herase2]

/-- Witness for C9: a concrete environment with `LISTEN_PID = 42` (the
current pid) and `LISTEN_FDS = 2` yields descriptors `[3, 4]` and an
environment retaining only the unrelated entry. -/
theorem listenfds_consumed_once_witness :
    fromEnvironment [("LISTEN_PID", "42"), ("LISTEN_FDS", "2"), ("HOME", "/x")]
        none 42 =
      .ok (⟨[3, 4]⟩, [("HOME", "/x")]) := by
  have h := listenfds_consumed_once
    [("LISTEN_PID", "42"), ("LISTEN_FDS", "2"), ("HOME", "/x")] none "42" "2" 42 2
    (by decide) (by decide) (by decide) (by decide)
  rw [h.1]
  rfl

/-- C10: `fromEnvironment` never raises: when `LISTEN_PID` is absent,
malformed, or names another process, or `LISTEN_FDS` is absent or
malformed, it returns an instance with no descriptors and leaves the
mapping unmodified — in particular a matching `LISTEN_PID` is not
removed when `LISTEN_FDS` is malformed. -/
theorem fromEnvironment_error_cases (environ : Env) (start : Option Int)
    (pid : Int) :
    (∃ r, fromEnvironment environ start pid = .ok r) ∧
    (envLookup environ "LISTEN_PID" = none →
      fromEnvironment environ start pid = .ok (⟨[]⟩, environ)) ∧
    (∀ ps, envLookup environ "LISTEN_PID" = some ps → pyInt? ps = none →
      fromEnvironment environ start pid = .ok (⟨[]⟩, environ)) ∧
    (∀ ps q, envLookup environ "LISTEN_PID" = some ps → pyInt? ps = some q →
      q ≠ pid → fromEnvironment environ start pid = .ok (⟨[]⟩, environ)) ∧
    (envLookup environ "LISTEN_FDS" = none →
      fromEnvironment environ start pid = .ok (⟨[]⟩, environ)) ∧
    (∀ cs, envLookup environ "LISTEN_FDS" = some cs → pyInt? cs = none →
      fromEnvironment environ start pid = .ok (⟨[]⟩, environ)) := by
  have fdsCase : (envLookup environ "LISTEN_FDS").bind pyInt? = none →
      fromEnvironment environ start pid = .ok (⟨[]⟩, environ) := by
    intro hn
    cases hq : (envLookup environ "LISTEN_PID").bind pyInt? with
    | none => exact fromEnvironment_noPid environ start pid hq
    | some q => exact fromEnvironment_noFds environ start pid q hq hn
  refine ⟨?_, ?_, ?_, ?_, ?_, ?_⟩
  · cases hq : (envLookup environ "LISTEN_PID").bind pyInt? with
    | none => exact ⟨_, fromEnvironment_noPid environ start pid hq⟩
    | some q =>
      by_cases hqe : q = pid
      · cases hn : (envLookup environ "LISTEN_FDS").bind pyInt? with
        | none => exact ⟨_, fromEnvironment_noFds environ start pid q hq hn⟩
        | some n => exact ⟨_, fromEnvironment_ok environ start pid n (hqe ▸ hq) hn⟩
      · exact ⟨_, fromEnvironment_wrongPid environ start pid q hq hqe⟩
  · intro h
    exact fromEnvironment_noPid environ start pid (by rw [h]; rfl)
  · intro ps hp hpi
    exact fromEnvironment_noPid environ start pid (by rw [hp]; simpa using hpi)
  · intro ps q hp hpi hne
    exact fromEnvironment_wrongPid environ start pid q
      (by rw [hp]; simpa using hpi) hne
  · intro h
    exact fdsCase (by rw [h]; rfl)
  · intro cs hf hfi
    exact fdsCase (by rw [hf]; simpa using hfi)

/-- Witness for C10: with a matching `LISTEN_PID` but a malformed
`LISTEN_FDS`, no descriptors are produced and the environment — the
`LISTEN_PID` entry included — is left untouched. -/
theorem fromEnvironment_error_cases_witness :
    fromEnvironment [("LISTEN_PID", "42"), ("LISTEN_FDS", "junk")] none 42 =
      .ok (⟨[]⟩, [("LISTEN_PID", "42"), ("LISTEN_FDS", "junk")]) :=
  (fromEnvironment_error_cases
    [("LISTEN_PID", "42"), ("LISTEN_FDS", "junk")] none 42).2.2.2.2.2
    "junk" (by decide) (by decide)

end Systemd

namespace MXCalc

theorem aLookup_aErase [DecidableEq α] (l : List (α × β)) (g h : α) :
    aLookup (aErase l g) h = if g = h then none else aLookup l h := by
  induction l with
  | nil => simp [aLookup, aErase]
  | cons a rest ih =>
    obtain ⟨k, v⟩ := a
    by_cases hk : k = g
    · subst hk
      by_cases hh : k = h
      · subst hh
        simp only [aErase, List.filter_cons, ne_eq, decide_not] at ih ⊢
        simpa using ih
      · simp only [aErase, List.filter_cons, ne_eq, decide_not] at ih ⊢
        simp only [aLookup] at ih ⊢
        simpa [hh] using ih
    · by_cases hh : k = h
      · subst hh
        have hgh : ¬ (g = k) := fun he => hk he.symm
        simp only [aErase, List.filter_cons, ne_eq, decide_not] at ih ⊢
        simp [aLookup, hk, hgh]
      · simp only [aErase, List.filter_cons, ne_eq, decide_not] at ih ⊢
        simp [aLookup, hk, hh, ih]

theorem badEntry_markBad [DecidableEq α] (st : MXState α) (g h : α) :
    badEntry (markBad st g) h =
      if g = h then some st.clock else badEntry st h := by
  by_cases hg : g = h <;>
    simp [badEntry, markBad, aLookup, aLookup_aErase, hg]

theorem badEntry_markGood [DecidableEq α] (st : MXState α) (g h : α) :
    badEntry (markGood st g) h = if g = h then none else badEntry st h := by
  simp [badEntry, markGood, aLookup_aErase]

theorem badEntry_advance [DecidableEq α] (st : MXState α) (d : ℕ) (h : α) :
    badEntry (advanceClock st d) h = badEntry st h := rfl

theorem sumAdvances_append (xs ys : List (MXOp α)) :
    sumAdvances (xs ++ ys) = sumAdvances xs + sumAdvances ys := by
  induction xs with
  | nil => simp [sumAdvances]
  | cons op xs ih =>
    cases op <;> simp [sumAdvances, ih]
    omega

theorem runOps_clock [DecidableEq α] (ops : List (MXOp α)) (st : MXState α) :
    (runOps st ops).clock = st.clock + sumAdvances ops := by
  induction ops generalizing st with
  | nil => simp [runOps, sumAdvances]
  | cons op ops ih =>
    have step : runOps st (op :: ops) = runOps (stepOp st op) ops := rfl
    rw [step, ih]
    cases op with
    | markBad g => simp [stepOp, markBad, sumAdvances]
    | markGood g => simp [stepOp, markGood, sumAdvances]
    | advance d =>
      simp [stepOp, advanceClock, sumAdvances]
      ring

theorem runOps_timeout [DecidableEq α] (ops : List (MXOp α)) (st : MXState α) :
    (runOps st ops).timeOutBadMX = st.timeOutBadMX := by
  induction ops generalizing st with
  | nil => rfl
  | cons op ops ih =>
    have step : runOps st (op :: ops) = runOps (stepOp st op) ops := rfl
    rw [step, ih]
    cases op <;> rfl

theorem badEntry_runOps [DecidableEq α] (h : α) (ops : List (MXOp α))
    (st : MXState α) :
    badEntry (runOps st ops) h = traceBad h ops st.clock (badEntry st h) := by
  induction ops generalizing st with
  | nil => rfl
  | cons op ops ih =>
    have step : runOps st (op :: ops) = runOps (stepOp st op) ops := rfl
    rw [step, ih]
    cases op with
    | markBad g =>
      rw [show stepOp st (.markBad g) = markBad st g from rfl, badEntry_markBad]
      rw [show (markBad st g).clock = st.clock from rfl]
      simp [traceBad]
    | markGood g =>
      rw [show stepOp st (.markGood g) = markGood st g from rfl, badEntry_markGood]
      rw [show (markGood st g).clock = st.clock from rfl]
      simp [traceBad]
    | advance d =>
      rw [show stepOp st (.advance d) = advanceClock st d from rfl,
        badEntry_advance]
      rw [show (advanceClock st d).clock = st.clock + (d : Int) from rfl]
      simp [traceBad]

theorem traceBad_append [DecidableEq α] (h : α) (xs ys : List (MXOp α))
    (t : Int) (acc : Option Int) :
    traceBad h (xs ++ ys) t acc =
      traceBad h ys (t + sumAdvances xs) (traceBad h xs t acc) := by
  induction xs generalizing t acc with
  | nil => simp [traceBad, sumAdvances]
  | cons op xs ih =>
    cases op with
    | markBad g => simp [traceBad, sumAdvances, ih]
    | markGood g => simp [traceBad, sumAdvances, ih]
    | advance d =>
      simp [traceBad, sumAdvances, ih]
      ring_nf

theorem traceBad_noMarkBad [DecidableEq α] (h : α) (ops : List (MXOp α))
    (t : Int) (acc : Option Int) (hnb : hasMarkBad h ops = false) :
    traceBad h ops t acc = acc ∨ traceBad h ops t acc = none := by
  induction ops generalizing t acc with
  | nil => left; rfl
  | cons op ops ih =>
    cases op with
    | markBad g =>
      simp only [hasMarkBad, Bool.or_eq_false_iff, decide_eq_false_iff_not] at hnb
      simp [traceBad, hnb.1]
      exact ih t acc hnb.2
    | markGood g =>
      simp only [hasMarkBad] at hnb
      by_cases hg : g = h
      · simp [traceBad, hg]
        rcases ih t none hnb with he | he <;> simp [he]
      · simp [traceBad, hg]
        exact ih t acc hnb
    | advance d =>
      simp only [hasMarkBad] at hnb
      simp [traceBad]
      exact ih (t + d) acc hnb

end MXCalc

namespace MXCalc

/-- C1: over every sequence of `markBad`/`markGood`/clock-advance
operations, a host is excluded from `getMX` candidate selection iff the
negative cache holds an entry for it recorded within `timeOutBadMX` of
the current clock time; `markGood(h)` makes `h` eligible immediately;
once the clock has advanced by at least `timeOutBadMX` after the last
`markBad(h)`, `h` is eligible again, while before that it is still
excluded. -/
theorem negative_cache_governs_selection [DecidableEq α] (t0 timeout : Int)
    (h : α) :
    (∀ (st : MXState α) (ans : List (MXRecord α)) (r : MXRecord α),
      r ∈ ans → r.exchange = h →
      (r ∈ candidates st ans ↔
        ¬ ∃ t, badEntry st h = some t ∧ st.clock - t < st.timeOutBadMX)) ∧
    (∀ ops : List (MXOp α),
      excludedHost (runOps (initState t0 timeout) (ops ++ [.markGood h])) h =
        false) ∧
    (∀ ops ops2 : List (MXOp α), hasMarkBad h ops2 = false →
      timeout ≤ (sumAdvances ops2 : Int) →
      excludedHost (runOps (initState t0 timeout) (ops ++ .markBad h :: ops2))
        h = false) ∧
    (∀ (ops : List (MXOp α)) (d : ℕ), (d : Int) < timeout →
      excludedHost
        (runOps (initState t0 timeout) (ops ++ [.markBad h, .advance d])) h =
        true) := by
  have clockInit : (initState t0 timeout : MXState α).clock = t0 := rfl
  have entryInit : badEntry (initState t0 timeout : MXState α) h = none := rfl
  refine ⟨?_, ?_, ?_, ?_⟩
  · intro st ans r hr hx
    subst hx
    constructor
    · intro hc hex
      obtain ⟨t, ht, hlt⟩ := hex
      have : eligible st r = true := (List.mem_filter.mp hc).2
      rw [eligible, excludedHost, ht] at this
      simp at this
      omega
    · intro hex
      refine List.mem_filter.mpr ⟨hr, ?_⟩
      rw [eligible, excludedHost]
      cases hb : badEntry st r.exchange with
      | none => rfl
      | some t =>
        simp only [Bool.not_eq_true']
        simp only [decide_eq_false_iff_not]
        intro hlt
        exact hex ⟨t, hb, hlt⟩
  · intro ops
    have hb := badEntry_runOps h (ops ++ [.markGood h]) (initState t0 timeout)
    rw [traceBad_append, entryInit, clockInit] at hb
    simp only [traceBad, eq_self_iff_true, if_true] at hb
    simp [excludedHost, hb]
  · intro ops ops2 hnb hd
    have hb := badEntry_runOps h (ops ++ .markBad h :: ops2)
      (initState t0 timeout)
    rw [traceBad_append, entryInit, clockInit] at hb
    simp only [traceBad, eq_self_iff_true, if_true] at hb
    have hc := runOps_clock (ops ++ .markBad h :: ops2) (initState t0 timeout)
    rw [clockInit, sumAdvances_append] at hc
    have hst : sumAdvances (MXOp.markBad h :: ops2) = sumAdvances ops2 := rfl
    rw [hst] at hc
    have ht := runOps_timeout (ops ++ .markBad h :: ops2) (initState t0 timeout)
    have htt : (initState t0 timeout : MXState α).timeOutBadMX = timeout := rfl
    rw [htt] at ht
    rcases traceBad_noMarkBad h ops2 (t0 + sumAdvances ops)
        (some (t0 + sumAdvances ops)) hnb with he | he
    · rw [he] at hb
      simp only [excludedHost, hb, hc, ht, decide_eq_false_iff_not]
      push_cast
      omega
    · rw [he] at hb
      simp [excludedHost, hb]
  · intro ops d hd
    have hb := badEntry_runOps h (ops ++ [.markBad h, .advance d])
      (initState t0 timeout)
    rw [traceBad_append, entryInit, clockInit] at hb
    simp only [traceBad, eq_self_iff_true, if_true] at hb
    have hc := runOps_clock (ops ++ [.markBad h, .advance d])
      (initState t0 timeout)
    rw [clockInit, sumAdvances_append] at hc
    have hst : sumAdvances [MXOp.markBad h, MXOp.advance d] = d := by
      simp [sumAdvances]
    rw [hst] at hc
    have ht := runOps_timeout (ops ++ [.markBad h, .advance d])
      (initState t0 timeout)
    have htt : (initState t0 timeout : MXState α).timeOutBadMX = timeout := rfl
    rw [htt] at ht
    simp only [excludedHost, hb, hc, ht, decide_eq_true_eq]
    push_cast
    omega

/-- Witness for C1: marking `bad` bad and advancing the clock by
exactly `timeOutBadMX = 600` makes the host eligible again. -/
theorem negative_cache_governs_selection_witness :
    excludedHost
      (runOps (initState (α := String) 0 600)
        [.markBad "bad", .advance 600]) "bad" = false :=
  (negative_cache_governs_selection 0 600 "bad").2.2.1 [] [.advance 600]
    (by decide) (by decide)

end MXCalc

namespace MXCalc

theorem foldl_pickBetter_mem (l : List (MXRecord α)) (a : MXRecord α) :
    l.foldl pickBetter a = a ∨ l.foldl pickBetter a ∈ l := by
  induction l generalizing a with
  | nil => left; rfl
  | cons b l ih =>
    rw [List.foldl_cons]
    rcases ih (pickBetter a b) with he | he
    · rw [he]
      unfold pickBetter
      split
      · right
        simp
      · left
        rfl
    · right
      simp [he]

theorem foldl_pickBetter_le_init (l : List (MXRecord α)) (a : MXRecord α) :
    (l.foldl pickBetter a).preference ≤ a.preference := by
  induction l generalizing a with
  | nil => simp
  | cons b l ih =>
    rw [List.foldl_cons]
    refine le_trans (ih (pickBetter a b)) ?_
    unfold pickBetter
    split
    · omega
    · exact le_refl _

theorem foldl_pickBetter_le (l : List (MXRecord α)) (a x : MXRecord α)
    (hx : x ∈ l) : (l.foldl pickBetter a).preference ≤ x.preference := by
  induction l generalizing a with
  | nil => cases hx
  | cons b l ih =>
    rw [List.foldl_cons]
    rcases List.mem_cons.mp hx with he | he
    · subst he
      refine le_trans (foldl_pickBetter_le_init l (pickBetter a x)) ?_
      unfold pickBetter
      split
      · exact le_refl _
      · omega
    · exact ih (pickBetter a b) he

theorem minByPref_mem (l : List (MXRecord α)) (r : MXRecord α)
    (h : minByPref l = some r) : r ∈ l := by
  cases l with
  | nil => cases h
  | cons a l =>
    simp only [minByPref, Option.some_inj] at h
    rcases foldl_pickBetter_mem l a with he | he
    · rw [h] at he
      simp [← he]
    · rw [h] at he
      simp [he]

theorem minByPref_le (l : List (MXRecord α)) (r : MXRecord α)
    (h : minByPref l = some r) :
    ∀ x ∈ l, r.preference ≤ x.preference := by
  intro x hx
  cases l with
  | nil => cases hx
  | cons a l =>
    simp only [minByPref, Option.some_inj] at h
    subst h
    rcases List.mem_cons.mp hx with he | he
    · subst he
      exact foldl_pickBetter_le_init l x
    · exact foldl_pickBetter_le l a x he

theorem minByPref_eq_none (l : List (MXRecord α)) :
    minByPref l = none ↔ l = [] := by
  cases l <;> simp [minByPref]

/-- C2: for every non-empty MX answer set, `getMX`'s selection step
returns the record with the lowest preference among those not excluded
by the negative cache; when every record is excluded it returns the
lowest-preference record of the whole set anyway. -/
theorem getMX_lowest_preference [DecidableEq α] (st : MXState α)
    (ans : List (MXRecord α)) (hne : ans ≠ []) :
    ∃ r, pickMX st ans = some r ∧
      (candidates st ans ≠ [] →
        r ∈ candidates st ans ∧
        ∀ x ∈ candidates st ans, r.preference ≤ x.preference) ∧
      (candidates st ans = [] →
        r ∈ ans ∧ ∀ x ∈ ans, r.preference ≤ x.preference) := by
  cases hc : minByPref (candidates st ans) with
  | some r =>
    refine ⟨r, by simp [pickMX, hc], ?_, ?_⟩
    · intro _
      exact ⟨minByPref_mem _ _ hc, minByPref_le _ _ hc⟩
    · intro hcc
      rw [hcc] at hc
      cases hc
  | none =>
    have hcc : candidates st ans = [] := (minByPref_eq_none _).mp hc
    obtain ⟨r, hr⟩ : ∃ r, minByPref ans = some r := by
      cases hl : ans with
      | nil => exact absurd hl hne
      | cons a l => exact ⟨_, rfl⟩
    refine ⟨r, by simp [pickMX, hc, hr], ?_, ?_⟩
    · intro hne2
      exact absurd hcc hne2
    · intro _
      exact ⟨minByPref_mem _ _ hr, minByPref_le _ _ hr⟩

/-- Witness for C2: host `bad` is freshly marked bad, so the
lower-preference record naming it is passed over in favour of `good`. -/
theorem getMX_lowest_preference_witness :
    ∃ r, pickMX (MXState.mk [("bad", 0)] 0 600)
        [⟨0, "bad"⟩, ⟨1, "good"⟩] = some r ∧
      (candidates (MXState.mk [("bad", 0)] 0 600)
          [⟨0, "bad"⟩, ⟨1, "good"⟩] ≠ [] →
        r ∈ candidates (MXState.mk [("bad", 0)] 0 600)
            [⟨0, "bad"⟩, ⟨1, "good"⟩] ∧
        ∀ x ∈ candidates (MXState.mk [("bad", 0)] 0 600)
            [⟨0, "bad"⟩, ⟨1, "good"⟩], r.preference ≤ x.preference) ∧
      (candidates (MXState.mk [("bad", 0)] 0 600)
          [⟨0, "bad"⟩, ⟨1, "good"⟩] = [] →
        r ∈ [(⟨0, "bad"⟩ : MXRecord String), ⟨1, "good"⟩] ∧
        ∀ x ∈ [(⟨0, "bad"⟩ : MXRecord String), ⟨1, "good"⟩],
          r.preference ≤ x.preference) :=
  getMX_lowest_preference (MXState.mk [("bad", 0)] 0 600)
    [⟨0, "bad"⟩, ⟨1, "good"⟩] (by decide)

end MXCalc

namespace MXCalc

theorem excludedHost_init [DecidableEq α] (t0 τ : Int) (h : α) :
    excludedHost (initState t0 τ) h = false := rfl

theorem resolveAnswer_single_cname [DecidableEq α] (st : MXState α) (d c : α)
    (fuel : ℕ) (seen : List α) (hdc : d ≠ c) :
    resolveAnswer st [.cname d c] (fuel + 1) d seen =
      .needLookup c (.cname d c) := by
  simp [resolveAnswer, findCname, DNSRecord.owner, hdc]

theorem resolveAnswer_single_mx [DecidableEq α] (st : MXState α) (d e : α)
    (p : Int) (fuel : ℕ) (seen : List α)
    (helig : excludedHost st e = false) :
    resolveAnswer st [.mx d p e] (fuel + 1) d seen = .found ⟨p, e⟩ := by
  simp [resolveAnswer, findCname, mxOf, pickMX, candidates, eligible, helig,
    minByPref]

theorem getMXChain_chain (L e : ℕ) (t0 τ : Int) :
    ∀ maxC d, d ≤ L → L - d ≤ maxC →
    getMXChain (chainResolver L e) (initState t0 τ) d maxC =
      (.ok ⟨0, e⟩, (L - d) + 1) := by
  intro maxC
  induction maxC with
  | zero =>
    intro d hd hld
    have hdL : d = L := by omega
    subst hdL
    rw [getMXChain]
    simp only [chainResolver, lt_irrefl, if_false]
    rw [show ([DNSRecord.mx d 0 e] : List (DNSRecord ℕ)).length + 1 = 1 + 1
      from rfl]
    rw [resolveAnswer_single_mx _ _ _ _ _ _ (excludedHost_init t0 τ e)]
    simp
  | succ m ih =>
    intro d hd hld
    by_cases hdL : d = L
    · subst hdL
      rw [getMXChain]
      simp only [chainResolver, lt_irrefl, if_false]
      rw [show ([DNSRecord.mx d 0 e] : List (DNSRecord ℕ)).length + 1 = 1 + 1
        from rfl]
      rw [resolveAnswer_single_mx _ _ _ _ _ _ (excludedHost_init t0 τ e)]
      simp
    · have hdlt : d < L := lt_of_le_of_ne hd hdL
      rw [getMXChain]
      simp only [chainResolver, hdlt, if_true]
      rw [show ([DNSRecord.cname d (d + 1)] : List (DNSRecord ℕ)).length + 1 =
        1 + 1 from rfl]
      rw [resolveAnswer_single_cname _ _ _ _ _ (by omega)]
      have hrec := ih (d + 1) (by omega) (by omega)
      have harith : L - (d + 1) + 1 + 1 = (L - d) + 1 := by omega
      simp [hrec, harith]

end MXCalc

namespace MXCalc

theorem getMXChain_endless (t0 τ : Int) :
    ∀ (maxC d : ℕ),
    getMXChain endlessResolver (initState t0 τ) d maxC =
      (.error (.chainTooLong (.cname (d + maxC) (d + maxC + 1))), maxC + 1) := by
  intro maxC
  induction maxC with
  | zero =>
    intro d
    rw [getMXChain]
    simp only [endlessResolver]
    rw [show ([DNSRecord.cname d (d + 1)] : List (DNSRecord ℕ)).length + 1 =
      1 + 1 from rfl]
    rw [resolveAnswer_single_cname _ _ _ _ _ (by omega)]
    simp
  | succ m ih =>
    intro d
    rw [getMXChain]
    simp only [endlessResolver]
    rw [show ([DNSRecord.cname d (d + 1)] : List (DNSRecord ℕ)).length + 1 =
      1 + 1 from rfl]
    rw [resolveAnswer_single_cname _ _ _ _ _ (by omega)]
    have hrec := ih (d + 1)
    have h1 : d + 1 + m = d + (m + 1) := by omega
    simp [hrec, h1]

theorem getMXChain_twoLoop [DecidableEq α] (t0 τ : Int) (a b : α)
    (hab : a ≠ b) (maxC : ℕ) :
    getMXChain (twoLoopResolver a b) (initState t0 τ) a maxC =
      (.error (.canonicalNameLoop (.cname b a)), 1) := by
  have hba : b ≠ a := Ne.symm hab
  have hinner : resolveAnswer (initState t0 τ)
      [.cname a b, .cname b a] 3 a [] = .loopFound (.cname b a) := by
    rw [show (3 : ℕ) = 2 + 1 from rfl]
    rw [resolveAnswer]
    simp only [findCname, List.findSome?, DNSRecord.owner]
    simp [hab, hba, DNSRecord.owner, resolveAnswer, findCname]
  rw [getMXChain]
  simp only [twoLoopResolver]
  rw [show ([DNSRecord.cname a b, DNSRecord.cname b a] :
    List (DNSRecord α)).length + 1 = 3 from rfl]
  rw [hinner]

theorem getMXChain_lookups_le [DecidableEq α]
    (resolver : α → Option (List (DNSRecord α))) (st : MXState α) :
    ∀ (maxC : ℕ) (d : α), (getMXChain resolver st d maxC).2 ≤ maxC + 1 := by
  intro maxC
  induction maxC with
  | zero =>
    intro d
    rw [getMXChain]
    cases resolver d with
    | none => simp
    | some answers =>
      cases h : resolveAnswer st answers (answers.length + 1) d [] <;> simp [h]
  | succ m ih =>
    intro d
    rw [getMXChain]
    cases resolver d with
    | none => simp
    | some answers =>
      cases h : resolveAnswer st answers (answers.length + 1) d [] with
      | found r => simp [h]
      | noRecords => simp [h]
      | loopFound c => simp [h]
      | needLookup canonical c =>
        have := ih canonical
        simp only [h]
        omega

end MXCalc

namespace MXCalc

/-- C3: a CNAME chain of length at most `maxChainLength` resolves
transparently to the final MX record (one lookup per hop plus the
final one); an unboundedly long chain fails with `chainTooLong`
carrying the offending CNAME record, after exactly `maxChainLength + 1`
lookups (the exact hop count); two CNAME records pointing at each other
in one answer set fail with `canonicalNameLoop` on the first lookup;
and for every resolver the number of lookups is bounded by
`maxChainLength + 1`, so `getMX` never loops indefinitely. -/
theorem cname_chain_resolution [DecidableEq α] (t0 τ : Int) :
    (∀ (L e maxC : ℕ), L ≤ maxC →
      getMXChain (chainResolver L e) (initState t0 τ) 0 maxC =
        (.ok ⟨0, e⟩, L + 1)) ∧
    (∀ maxC : ℕ,
      getMXChain endlessResolver (initState t0 τ) 0 maxC =
        (.error (.chainTooLong (.cname maxC (maxC + 1))), maxC + 1)) ∧
    (∀ a b : α, a ≠ b → ∀ maxC : ℕ,
      getMXChain (twoLoopResolver a b) (initState t0 τ) a maxC =
        (.error (.canonicalNameLoop (.cname b a)), 1)) ∧
    (∀ (resolver : α → Option (List (DNSRecord α))) (st : MXState α)
      (maxC : ℕ) (d : α), (getMXChain resolver st d maxC).2 ≤ maxC + 1) := by
  refine ⟨?_, ?_, ?_, ?_⟩
  · intro L e maxC hL
    simpa using getMXChain_chain L e t0 τ maxC 0 (by omega) (by omega)
  · intro maxC
    simpa using getMXChain_endless t0 τ maxC 0
  · intro a b hab maxC
    exact getMXChain_twoLoop t0 τ a b hab maxC
  · intro resolver st maxC d
    exact getMXChain_lookups_le resolver st maxC d

/-- Witness for C3: a two-hop chain under limit 3 resolves to the final
MX in 3 lookups; an endless chain under limit 3 fails after exactly 4
lookups carrying the fourth CNAME; a two-node CNAME cycle fails with
`canonicalNameLoop` at once. -/
theorem cname_chain_resolution_witness :
    getMXChain (chainResolver 2 7) (initState (α := ℕ) 0 600) 0 3 =
      (.ok ⟨0, 7⟩, 3) ∧
    getMXChain endlessResolver (initState 0 600) 0 3 =
      (.error (.chainTooLong (.cname 3 4)), 4) ∧
    getMXChain (twoLoopResolver "a" "b") (initState 0 600) "a" 3 =
      (.error (.canonicalNameLoop (.cname "b" "a")), 1) :=
  ⟨(cname_chain_resolution (α := ℕ) 0 600).1 2 7 3 (by decide),
   (cname_chain_resolution (α := ℕ) 0 600).2.1 3,
   (cname_chain_resolution (α := String) 0 600).2.2.1 "a" "b" (by decide) 3⟩

end MXCalc

namespace Queue

theorem notBoth_qstep (q : QState) (i : ℕ)
    (h : ¬ (i ∈ q.waiting ∧ i ∈ q.relaying)) (op : QOp) :
    ¬ (i ∈ (qstep q op).waiting ∧ i ∈ (qstep q op).relaying) := by
  cases op with
  | setRelaying j =>
    by_cases hj : j ∈ q.waiting <;>
      simp only [qstep, setRelaying, hj, if_true, if_false]
    · rintro ⟨h1, h2⟩
      rcases Finset.mem_insert.mp h2 with he | he
      · exact (Finset.mem_erase.mp h1).1 he
      · exact h ⟨(Finset.mem_erase.mp h1).2, he⟩
    · exact h
  | setWaiting j =>
    by_cases hj : j ∈ q.relaying <;>
      simp only [qstep, setWaiting, hj, if_true, if_false]
    · rintro ⟨h1, h2⟩
      rcases Finset.mem_insert.mp h1 with he | he
      · exact (Finset.mem_erase.mp h2).1 he
      · exact h ⟨he, (Finset.mem_erase.mp h2).2⟩
    · exact h
  | done j =>
    simp only [qstep, doneMsg]
    rintro ⟨h1, h2⟩
    exact h ⟨(Finset.mem_erase.mp h1).2, (Finset.mem_erase.mp h2).2⟩

theorem present_qstep (q : QState) (i : ℕ)
    (h : i ∈ q.waiting ∨ i ∈ q.relaying) (op : QOp) (hop : op ≠ .done i) :
    i ∈ (qstep q op).waiting ∨ i ∈ (qstep q op).relaying := by
  cases op with
  | setRelaying j =>
    by_cases hj : j ∈ q.waiting <;>
      simp only [qstep, setRelaying, hj, if_true, if_false]
    · by_cases hij : i = j
      · right
        exact Finset.mem_insert.mpr (Or.inl hij)
      · rcases h with h | h
        · left
          exact Finset.mem_erase.mpr ⟨hij, h⟩
        · right
          exact Finset.mem_insert.mpr (Or.inr h)
    · exact h
  | setWaiting j =>
    by_cases hj : j ∈ q.relaying <;>
      simp only [qstep, setWaiting, hj, if_true, if_false]
    · by_cases hij : i = j
      · left
        exact Finset.mem_insert.mpr (Or.inl hij)
      · rcases h with h | h
        · left
          exact Finset.mem_insert.mpr (Or.inr h)
        · right
          exact Finset.mem_erase.mpr ⟨hij, h⟩
    · exact h
  | done j =>
    have hij : i ≠ j := fun he => hop (by rw [he])
    simp only [qstep, doneMsg]
    rcases h with h | h
    · left
      exact Finset.mem_erase.mpr ⟨hij, h⟩
    · right
      exact Finset.mem_erase.mpr ⟨hij, h⟩

theorem absent_qstep (q : QState) (i : ℕ)
    (h1 : i ∉ q.waiting) (h2 : i ∉ q.relaying) (op : QOp) :
    i ∉ (qstep q op).waiting ∧ i ∉ (qstep q op).relaying := by
  cases op with
  | setRelaying j =>
    by_cases hj : j ∈ q.waiting <;>
      simp only [qstep, setRelaying, hj, if_true, if_false]
    · constructor
      · intro hm
        exact h1 (Finset.mem_erase.mp hm).2
      · intro hm
        rcases Finset.mem_insert.mp hm with he | he
        · subst he
          exact h1 hj
        · exact h2 he
    · exact ⟨h1, h2⟩
  | setWaiting j =>
    by_cases hj : j ∈ q.relaying <;>
      simp only [qstep, setWaiting, hj, if_true, if_false]
    · constructor
      · intro hm
        rcases Finset.mem_insert.mp hm with he | he
        · subst he
          exact h2 hj
        · exact h1 he
      · intro hm
        exact h2 (Finset.mem_erase.mp hm).2
    · exact ⟨h1, h2⟩
  | done j =>
    simp only [qstep, doneMsg]
    constructor
    · intro hm
      exact h1 (Finset.mem_erase.mp hm).2
    · intro hm
      exact h2 (Finset.mem_erase.mp hm).2

theorem qrun_notBoth (ops : List QOp) (q : QState) (i : ℕ)
    (h : ¬ (i ∈ q.waiting ∧ i ∈ q.relaying)) :
    ¬ (i ∈ (qrun q ops).waiting ∧ i ∈ (qrun q ops).relaying) := by
  induction ops generalizing q with
  | nil => exact h
  | cons op ops ih => exact ih _ (notBoth_qstep q i h op)

theorem qrun_present (ops : List QOp) (q : QState) (i : ℕ)
    (h : i ∈ q.waiting ∨ i ∈ q.relaying) (hnd : hasDone i ops = false) :
    i ∈ (qrun q ops).waiting ∨ i ∈ (qrun q ops).relaying := by
  induction ops generalizing q with
  | nil => exact h
  | cons op ops ih =>
    have hsplit : op ≠ QOp.done i ∧ hasDone i ops = false := by
      cases op with
      | setRelaying j => simpa [hasDone] using hnd
      | setWaiting j => simpa [hasDone] using hnd
      | done j =>
        simp only [hasDone, Bool.or_eq_false_iff, decide_eq_false_iff_not]
          at hnd
        exact ⟨fun he => hnd.1 (by cases he; rfl), hnd.2⟩
    exact ih _ (present_qstep q i h op hsplit.1) hsplit.2

theorem qrun_absent (ops : List QOp) (q : QState) (i : ℕ)
    (h1 : i ∉ q.waiting) (h2 : i ∉ q.relaying) :
    i ∉ (qrun q ops).waiting ∧ i ∉ (qrun q ops).relaying := by
  induction ops generalizing q with
  | nil => exact ⟨h1, h2⟩
  | cons op ops ih =>
    obtain ⟨g1, g2⟩ := absent_qstep q i h1 h2 op
    exact ih _ g1 g2

end Queue

namespace Queue

/-- C4: starting from a freshly scanned queue, an id that has not been
`done` is in exactly one of the waiting set and the relaying set;
`setRelaying(id)` moves it Waiting → Relaying; `setWaiting(id)` right
after `setRelaying(id)` restores the state exactly; and once `done(id)`
has run, the id is in neither set for the rest of the trace. -/
theorem queue_state_partition (ids : Finset ℕ) (i : ℕ) (hi : i ∈ ids) :
    (∀ ops : List QOp, hasDone i ops = false →
      ((i ∈ getWaiting (qrun (initQueue ids) ops) ∧
        i ∉ getRelayed (qrun (initQueue ids) ops)) ∨
       (i ∉ getWaiting (qrun (initQueue ids) ops) ∧
        i ∈ getRelayed (qrun (initQueue ids) ops)))) ∧
    (∀ q : QState, i ∈ getWaiting q →
      getWaiting (setRelaying q i) = (getWaiting q).erase i ∧
      getRelayed (setRelaying q i) = insert i (getRelayed q)) ∧
    (∀ q : QState, i ∈ getWaiting q → i ∉ getRelayed q →
      setWaiting (setRelaying q i) i = q) ∧
    (∀ ops ops2 : List QOp,
      i ∉ getWaiting (qrun (initQueue ids) (ops ++ .done i :: ops2)) ∧
      i ∉ getRelayed (qrun (initQueue ids) (ops ++ .done i :: ops2))) := by
  refine ⟨?_, ?_, ?_, ?_⟩
  · intro ops hnd
    have hinit : i ∈ (initQueue ids).waiting ∨ i ∈ (initQueue ids).relaying :=
      Or.inl hi
    have hpres := qrun_present ops (initQueue ids) i hinit hnd
    have hnb := qrun_notBoth ops (initQueue ids) i
      (by rintro ⟨_, hr⟩; exact absurd hr (Finset.not_mem_empty i))
    rcases hpres with h | h
    · left
      exact ⟨h, fun hr => hnb ⟨h, hr⟩⟩
    · right
      exact ⟨fun hw => hnb ⟨hw, h⟩, h⟩
  · intro q hw
    simp only [getWaiting] at hw
    simp [getWaiting, getRelayed, setRelaying, hw]
  · intro q hw hr
    cases q with
    | mk w r =>
      simp only [getWaiting] at hw
      simp only [getRelayed] at hr
      simp only [setRelaying, setWaiting, hw, if_true]
      simp [Finset.mem_insert, Finset.insert_erase hw, Finset.erase_insert hr]
  · intro ops ops2
    have hq : qrun (initQueue ids) (ops ++ .done i :: ops2) =
        qrun (qstep (qrun (initQueue ids) ops) (.done i)) ops2 := by
      simp [qrun, List.foldl_append]
    rw [hq]
    have h1 : i ∉ (qstep (qrun (initQueue ids) ops) (.done i)).waiting := by
      simp [qstep, doneMsg]
    have h2 : i ∉ (qstep (qrun (initQueue ids) ops) (.done i)).relaying := by
      simp [qstep, doneMsg]
    exact qrun_absent ops2 _ i h1 h2

/-- Witness for C4: in a two-message queue, after `setRelaying 1` the
id 1 is in exactly one of the two sets. -/
theorem queue_state_partition_witness :
    (1 ∈ getWaiting (qrun (initQueue {1, 2}) [.setRelaying 1]) ∧
     1 ∉ getRelayed (qrun (initQueue {1, 2}) [.setRelaying 1])) ∨
    (1 ∉ getWaiting (qrun (initQueue {1, 2}) [.setRelaying 1]) ∧
     1 ∈ getRelayed (qrun (initQueue {1, 2}) [.setRelaying 1])) :=
  (queue_state_partition {1, 2} 1 (by decide)).1 [.setRelaying 1] (by decide)

end Queue

namespace Maildir

theorem fillFirstNone_set (slots : List (Option Msg)) (i : ℕ) (m : Msg)
    (hslot : slots.get? i = some (some m))
    (hall : ∀ s ∈ slots, s.isSome) :
    fillFirstNone (slots.set i none) m = slots := by
  induction slots generalizing i with
  | nil => cases hslot
  | cons a rest ih =>
    cases i with
    | zero =>
      simp only [List.get?] at hslot
      cases hslot
      simp [List.set, fillFirstNone]
    | succ j =>
      have ha : a.isSome := hall a (by simp)
      obtain ⟨x, hx⟩ := Option.isSome_iff_exists.mp ha
      subst hx
      simp only [List.set, fillFirstNone]
      rw [ih j (by simpa using hslot) (fun s hs => hall s (by simp [hs]))]

/-- Counterexample to C5 as stated: the repository's own test
(`MaildirTestCase.test_mailbox`, lines 564-567) pins that
`deleteMessage` moves the message file into `.Trash/cur` at once —
before any `sync` — so "deleteMessage marks the message without
physically removing it; only sync() physically relocates it into the
Trash mailbox's cur directory" fails on a one-message mailbox. -/
theorem deleteMessage_relocates_at_once :
    ¬ ((deleteMessage (initBox [⟨"m0", 3⟩]) 0).trashCur =
        (initBox [⟨"m0", 3⟩]).trashCur) := by
  decide

/-- C5 (amended): on a freshly listed maildir mailbox,
`deleteMessage(i)` immediately renames the message file into the Trash
mailbox's `cur` directory and records an undo entry, after which
`listMessages(i)` returns 0; `undeleteMessages()` before `sync()`
restores the mailbox exactly; `sync()` merely discards the undo
records, after which `undeleteMessages()` recovers nothing and the
message stays in the trash, still listed as 0. -/
theorem maildir_delete_undelete_sync (b : MaildirBox) (i : ℕ) (m : Msg)
    (hslot : b.slots.get? i = some (some m))
    (hall : ∀ s ∈ b.slots, s.isSome)
    (hdel : b.deleted = []) :
    (deleteMessage b i).trashCur = m :: b.trashCur ∧
    listMessage (deleteMessage b i) i = some 0 ∧
    undeleteMessages (deleteMessage b i) = b ∧
    undeleteMessages (syncBox (deleteMessage b i)) =
      syncBox (deleteMessage b i) ∧
    listMessage (syncBox (deleteMessage b i)) i = some 0 ∧
    (syncBox (deleteMessage b i)).trashCur = m :: b.trashCur := by
  obtain ⟨slots, trash, del⟩ := b
  simp only at hslot hall hdel
  subst hdel
  have hlen : i < slots.length := by
    by_contra hge
    rw [List.get?_eq_none.mpr (le_of_not_lt hge)] at hslot
    cases hslot
  have hslot2 : slots[i]? = some (some m) := by
    rw [← List.get?_eq_getElem?]
    exact hslot
  have hdelete : deleteMessage ⟨slots, trash, []⟩ i =
      ⟨slots.set i none, m :: trash, [m]⟩ := by
    simp [deleteMessage, hslot, hslot2]
  have hset : (slots.set i none)[i]? = some none :=
    List.getElem?_set_eq_of_lt _ hlen
  refine ⟨?_, ?_, ?_, ?_, ?_, ?_⟩
  · rw [hdelete]
  · rw [hdelete]
    simp [listMessage, hset]
  · rw [hdelete]
    simp only [undeleteMessages, List.reverse_cons, List.reverse_nil,
      List.nil_append, List.foldl_cons, List.foldl_nil, undeleteOne]
    rw [fillFirstNone_set slots i m hslot hall]
    simp [List.erase_cons_head]
  · rw [hdelete]
    simp [syncBox, undeleteMessages]
  · rw [hdelete]
    simp [syncBox, listMessage, hset]
  · rw [hdelete]
    rfl

/-- Witness for the amended C5: deleting message 1 of a two-message box
puts it in the trash and `undeleteMessages` restores the box exactly. -/
theorem maildir_delete_undelete_sync_witness :
    (deleteMessage (initBox [⟨"m0", 3⟩, ⟨"m1", 4⟩]) 1).trashCur =
      [⟨"m1", 4⟩] ∧
    undeleteMessages (deleteMessage (initBox [⟨"m0", 3⟩, ⟨"m1", 4⟩]) 1) =
      initBox [⟨"m0", 3⟩, ⟨"m1", 4⟩] :=
  ⟨(maildir_delete_undelete_sync (initBox [⟨"m0", 3⟩, ⟨"m1", 4⟩]) 1 ⟨"m1", 4⟩
      (by decide) (by decide) (by decide)).1,
   (maildir_delete_undelete_sync (initBox [⟨"m0", 3⟩, ⟨"m1", 4⟩]) 1 ⟨"m1", 4⟩
      (by decide) (by decide) (by decide)).2.2.1⟩

end Maildir

namespace Alias

/-- C6: in an alias map whose address aliases form the reference cycle
`n1 → n2 → n3 → n1` (no member being a registered user), resolving any
member of the cycle yields no concrete receivers; and a group holding
one member of the cycle together with a valid (process) member resolves
to exactly the valid member's receiver. -/
theorem cyclic_alias_resolution (users : List String)
    (n1 n2 n3 g cmd : String)
    (h12 : n1 ≠ n2) (h13 : n1 ≠ n3) (h23 : n2 ≠ n3)
    (hg1 : g ≠ n1) (hg2 : g ≠ n2) (hg3 : g ≠ n3)
    (hu1 : n1 ∉ users) (hu2 : n2 ∉ users) (hu3 : n3 ∉ users) :
    resolve users [(n1, .addr n1 n2), (n2, .addr n2 n3), (n3, .addr n3 n1)]
      (.addr n1 n2) = none ∧
    resolve users [(n1, .addr n1 n2), (n2, .addr n2 n3), (n3, .addr n3 n1)]
      (.addr n2 n3) = none ∧
    resolve users [(n1, .addr n1 n2), (n2, .addr n2 n3), (n3, .addr n3 n1)]
      (.addr n3 n1) = none ∧
    resolve users [(n1, .addr n1 n2), (n2, .addr n2 n3), (n3, .addr n3 n1)]
      (.group [.process cmd, .addr g n1]) = some [.process cmd] := by
  refine ⟨?_, ?_, ?_, ?_⟩ <;>
    simp [resolve, resolveNode, resolveList, MXCalc.aLookup,
      h12, h13, h23, hg1, hg2, hg3, hu1, hu2, hu3,
      h12.symm, h13.symm, h23.symm, hg1.symm, hg2.symm, hg3.symm]

/-- Witness for C6: the concrete cycle `alias1 → alias2 → alias3 →
alias1` resolves each member to nothing, and a group of `|echo` plus
`alias1` resolves to just the process receiver. -/
theorem cyclic_alias_resolution_witness :
    resolve [] [("alias1", .addr "alias1" "alias2"),
        ("alias2", .addr "alias2" "alias3"),
        ("alias3", .addr "alias3" "alias1")]
      (.addr "alias1" "alias2") = none ∧
    resolve [] [("alias1", .addr "alias1" "alias2"),
        ("alias2", .addr "alias2" "alias3"),
        ("alias3", .addr "alias3" "alias1")]
      (.addr "alias2" "alias3") = none ∧
    resolve [] [("alias1", .addr "alias1" "alias2"),
        ("alias2", .addr "alias2" "alias3"),
        ("alias3", .addr "alias3" "alias1")]
      (.addr "alias3" "alias1") = none ∧
    resolve [] [("alias1", .addr "alias1" "alias2"),
        ("alias2", .addr "alias2" "alias3"),
        ("alias3", .addr "alias3" "alias1")]
      (.group [.process "echo", .addr "alias4" "alias1"]) =
      some [.process "echo"] :=
  cyclic_alias_resolution [] "alias1" "alias2" "alias3" "alias4" "echo"
    (by decide) (by decide) (by decide) (by decide) (by decide) (by decide)
    (by decide) (by decide) (by decide)

end Alias

namespace ProcessAlias

/-- C7: on a wrapper whose process is still running, `eomReceived`
schedules the deadline `completionTimeout` after now (no kill, no
completion yet); advancing the clock to or past the deadline sends
exactly one KILL and fails the completion with `ProcessAliasTimeout`,
while advancing any less does neither; a process that exits before
`eomReceived` makes the next `eomReceived` find the completion already
failed with the recorded exit reason; and a process exit after the
timeout has fired does not change the completion. -/
theorem process_alias_timeout (t0 τ : Int) (r : ExitReason) :
    (mwStep (mwInit t0 τ) .eomReceived).result = none ∧
    (mwStep (mwInit t0 τ) .eomReceived).killSignals = [] ∧
    (∀ d : ℕ, τ ≤ (d : Int) →
      (mwStep (mwStep (mwInit t0 τ) .eomReceived) (.advance d)).killSignals =
        ["KILL"] ∧
      (mwStep (mwStep (mwInit t0 τ) .eomReceived) (.advance d)).result =
        some .timedOut) ∧
    (∀ d : ℕ, (d : Int) < τ →
      (mwStep (mwStep (mwInit t0 τ) .eomReceived) (.advance d)).killSignals =
        [] ∧
      (mwStep (mwStep (mwInit t0 τ) .eomReceived) (.advance d)).result =
        none) ∧
    ((mwStep (mwStep (mwInit t0 τ) (.processEnded r)) .eomReceived).result =
      some (.failed r) ∧
     (mwStep (mwStep (mwInit t0 τ) (.processEnded r))
        .eomReceived).killSignals = []) ∧
    (∀ d : ℕ, τ ≤ (d : Int) →
      (mwStep (mwStep (mwStep (mwInit t0 τ) .eomReceived) (.advance d))
        (.processEnded r)).result = some .timedOut) := by
  refine ⟨?_, ?_, ?_, ?_, ?_, ?_⟩
  · simp [mwInit, mwStep]
  · simp [mwInit, mwStep]
  · intro d hd
    have hc : t0 + τ ≤ t0 + (d : Int) := by omega
    constructor <;> simp [mwInit, mwStep, hc]
  · intro d hd
    have hc : ¬ (t0 + τ ≤ t0 + (d : Int)) := by omega
    constructor <;> simp [mwInit, mwStep, hc]
  · constructor <;> simp [mwInit, mwStep]
  · intro d hd
    have hc : t0 + τ ≤ t0 + (d : Int) := by omega
    simp [mwInit, mwStep, hc]

/-- Witness for C7: with `completionTimeout = 60`, advancing the
simulated clock by exactly 60 after `eomReceived` sends KILL and times
the completion out; a clean exit before `eomReceived` leaves the
completion failed with the recorded reason. -/
theorem process_alias_timeout_witness :
    (mwStep (mwStep (mwInit 0 60) .eomReceived) (.advance 60)).killSignals =
      ["KILL"] ∧
    (mwStep (mwStep (mwInit 0 60) .eomReceived) (.advance 60)).result =
      some .timedOut ∧
    (mwStep (mwStep (mwInit 0 60) (.processEnded (.processDone 0)))
      .eomReceived).result = some (.failed (.processDone 0)) :=
  ⟨((process_alias_timeout 0 60 (.processDone 0)).2.2.1 60 (by decide)).1,
   ((process_alias_timeout 0 60 (.processDone 0)).2.2.1 60 (by decide)).2,
   ((process_alias_timeout 0 60 (.processDone 0)).2.2.2.2.1).1⟩

end ProcessAlias

namespace Relay

theorem runCodes_spec (codes : List ℕ) (ms suc fl : List Msg)
    (hlen : codes.length = ms.length) :
    runCodes ⟨ms, suc, fl⟩ codes =
      ⟨[], suc ++ ((ms.zip codes).filter (fun p => is2xx p.2)).map Prod.fst,
          fl ++ ((ms.zip codes).filter (fun p => !is2xx p.2)).map Prod.fst⟩ := by
  induction codes generalizing ms suc fl with
  | nil =>
    cases ms with
    | nil => simp [runCodes]
    | cons m ms => cases hlen
  | cons c cs ih =>
    cases ms with
    | nil => cases hlen
    | cons m ms =>
      simp only [runCodes, List.foldl_cons]
      by_cases h2 : is2xx c
      · rw [show sentMail ⟨m :: ms, suc, fl⟩ c = ⟨ms, suc ++ [m], fl⟩ from by
          simp [sentMail, h2]]
        have ihm := ih ms (suc ++ [m]) fl (by simpa using hlen)
        simp only [runCodes] at ihm
        rw [ihm]
        simp [List.filter_cons, h2]
      · rw [show sentMail ⟨m :: ms, suc, fl⟩ c = ⟨ms, suc, fl ++ [m]⟩ from by
          simp [sentMail, h2]]
        have ihm := ih ms suc (fl ++ [m]) (by simpa using hlen)
        simp only [runCodes] at ihm
        rw [ihm]
        simp [List.filter_cons, h2]

/-- C8: a relay session processes its batch strictly in load order: a
2xx status reports the current message as succeeded, any other status
reports it as failed, either way the session advances; once the batch
is exhausted `getMailFrom`/`getMailTo`/`getMailData` return the
terminal sentinel `none`. -/
theorem relay_batch_order (ms : List Msg) (codes : List ℕ)
    (hlen : codes.length = ms.length) :
    (runCodes (loadMessages ms) codes).batch = [] ∧
    getMailFrom (runCodes (loadMessages ms) codes) = none ∧
    getMailTo (runCodes (loadMessages ms) codes) = none ∧
    getMailData (runCodes (loadMessages ms) codes) = none ∧
    (runCodes (loadMessages ms) codes).succeeded =
      ((ms.zip codes).filter (fun p => is2xx p.2)).map Prod.fst ∧
    (runCodes (loadMessages ms) codes).failed =
      ((ms.zip codes).filter (fun p => !is2xx p.2)).map Prod.fst := by
  rw [show loadMessages ms = ⟨ms, [], []⟩ from rfl,
    runCodes_spec codes ms [] [] hlen]
  simp [getMailFrom, getMailTo, getMailData]

/-- Witness for C8: a two-message batch answered 250 then 550 reports
the first message as succeeded and the second as failed, in order, and
the session is exhausted. -/
theorem relay_batch_order_witness :
    (runCodes (loadMessages [⟨"a", ["x"], ["b1"]⟩, ⟨"c", ["y"], ["b2"]⟩])
        [250, 550]).batch = [] ∧
    getMailFrom (runCodes (loadMessages
        [⟨"a", ["x"], ["b1"]⟩, ⟨"c", ["y"], ["b2"]⟩]) [250, 550]) = none ∧
    getMailTo (runCodes (loadMessages
        [⟨"a", ["x"], ["b1"]⟩, ⟨"c", ["y"], ["b2"]⟩]) [250, 550]) = none ∧
    getMailData (runCodes (loadMessages
        [⟨"a", ["x"], ["b1"]⟩, ⟨"c", ["y"], ["b2"]⟩]) [250, 550]) = none ∧
    (runCodes (loadMessages [⟨"a", ["x"], ["b1"]⟩, ⟨"c", ["y"], ["b2"]⟩])
        [250, 550]).succeeded =
      (([(⟨"a", ["x"], ["b1"]⟩ : Msg), ⟨"c", ["y"], ["b2"]⟩].zip
          [250, 550]).filter (fun p => is2xx p.2)).map Prod.fst ∧
    (runCodes (loadMessages [⟨"a", ["x"], ["b1"]⟩, ⟨"c", ["y"], ["b2"]⟩])
        [250, 550]).failed =
      (([(⟨"a", ["x"], ["b1"]⟩ : Msg), ⟨"c", ["y"], ["b2"]⟩].zip
          [250, 550]).filter (fun p => !is2xx p.2)).map Prod.fst :=
  relay_batch_order [⟨"a", ["x"], ["b1"]⟩, ⟨"c", ["y"], ["b2"]⟩] [250, 550]
    (by decide)

end Relay
